import Mathlib

/-!
Shallow embedding of the TSrepr core C++ sources (src/rle.cpp,
src/helpers.cpp, src/representations.cpp) over exact rationals, together
with theorems settling the specification's claims.  Machine doubles are
modelled as rationals (the run-length encoder compares values with exact
equality, and every concrete scenario below uses values that are exact in
double precision), vector indexing out of range is modelled by Option or
by a default that is never reached under the stated preconditions.
-/

/-- Embedding of the scan loop of rleC (rle.cpp, lines 27-44): `prev` is the
value of the run currently being extended (already pushed with count 1) and
the list argument is the rest of the iterator range.  Extending the current
run on exact equality (`prev == *it`) corresponds to incrementing the count
of the run that contains `prev`. -/
def rleRuns (prev : ℚ) : List ℚ → List (ℚ × ℕ)
  | [] => [(prev, 1)]
  | y :: ys =>
    if prev = y then
      match rleRuns y ys with
      | [] => []
      | (v, c) :: tl => (v, c + 1) :: tl
    else (prev, 1) :: rleRuns y ys

/-- Embedding of rleC (rle.cpp, lines 22-49).  The C++ code unconditionally
reads `x[0]` before the scan, so the empty input is out of range: that read
is modelled by the `none` branch. -/
def rleC (x : List ℚ) : Option (List (ℚ × ℕ)) :=
  match x with
  | [] => none
  | h :: t => some (rleRuns h t)

/-- Total wrapper around the run scan, used where the C++ callers invoke
rleC on encoder output that is non-empty under the caller's precondition
(the `[]` case is unreachable there). -/
def rleRunsOf (l : List ℚ) : List (ℚ × ℕ) :=
  match l with
  | [] => []
  | h :: t => rleRuns h t

/-- Expansion of a run list: each run's value repeated `length` times,
concatenated. -/
def runsExpand (rs : List (ℚ × ℕ)) : List ℚ :=
  (rs.map (fun r => List.replicate r.2 r.1)).flatten

theorem runsExpand_cons (v : ℚ) (c : ℕ) (tl : List (ℚ × ℕ)) :
    runsExpand ((v, c) :: tl) = List.replicate c v ++ runsExpand tl := by
  simp [runsExpand]

/-- The first run produced by the scan carries the start value `prev`. -/
theorem rleRuns_head : ∀ (t : List ℚ) (v : ℚ),
    ∃ c tl, rleRuns v t = (v, c) :: tl := by
  intro t
  induction t with
  | nil => intro v; exact ⟨1, [], rfl⟩
  | cons y ys ih =>
    intro v
    by_cases h : v = y
    · obtain ⟨c, tl, htl⟩ := ih y
      subst h
      exact ⟨c + 1, tl, by simp [rleRuns, htl]⟩
    · exact ⟨1, rleRuns y ys, by simp [rleRuns, h]⟩

/-- Expanding the runs of the scan recovers `prev` followed by the tail. -/
theorem runsExpand_rleRuns : ∀ (t : List ℚ) (v : ℚ),
    runsExpand (rleRuns v t) = v :: t := by
  intro t
  induction t with
  | nil => intro v; simp [rleRuns, runsExpand]
  | cons y ys ih =>
    intro v
    by_cases h : v = y
    · subst h
      obtain ⟨c, tl, htl⟩ := rleRuns_head ys v
      have hstep : rleRuns v (v :: ys) = (v, c + 1) :: tl := by
        simp [rleRuns, htl]
      have hexp : runsExpand ((v, c) :: tl) = v :: ys := by
        rw [← htl]; exact ih v
      rw [hstep, runsExpand_cons, List.replicate_succ, List.cons_append,
        ← runsExpand_cons, hexp]
    · have hstep : rleRuns v (y :: ys) = (v, 1) :: rleRuns y ys := by
        simp [rleRuns, h]
      rw [hstep, runsExpand_cons, ih y]
      simp

/-- The length of the expansion is the sum of the run lengths. -/
theorem runsExpand_length (rs : List (ℚ × ℕ)) :
    (runsExpand rs).length = (rs.map Prod.snd).sum := by
  induction rs with
  | nil => simp [runsExpand]
  | cons r tl ih =>
    obtain ⟨v, c⟩ := r
    rw [runsExpand_cons]
    simp [ih]

/-- Adjacent runs produced by the scan never share a value. -/
theorem rleRuns_chain : ∀ (t : List ℚ) (v : ℚ),
    List.Chain' (fun a b : ℚ × ℕ => a.1 ≠ b.1) (rleRuns v t) := by
  intro t
  induction t with
  | nil => intro v; simp [rleRuns]
  | cons y ys ih =>
    intro v
    by_cases h : v = y
    · subst h
      obtain ⟨c, tl, htl⟩ := rleRuns_head ys v
      have hstep : rleRuns v (v :: ys) = (v, c + 1) :: tl := by
        simp [rleRuns, htl]
      have ihc := ih v
      rw [htl] at ihc
      rw [hstep]
      rw [List.chain'_cons'] at ihc ⊢
      exact ⟨ihc.1, ihc.2⟩
    · have hstep : rleRuns v (y :: ys) = (v, 1) :: rleRuns y ys := by
        simp [rleRuns, h]
      obtain ⟨c, tl, htl⟩ := rleRuns_head ys y
      rw [hstep, htl]
      have ihc := ih y
      rw [htl] at ihc
      exact List.Chain'.cons (by simpa using h) ihc

/-- Claim C1: for every non-empty input, the run sequence produced by rleC
round-trips (expanding each run's value by its length reconstructs the
input), the run lengths sum to the input length, and no two consecutive
runs share a value; runs are extended only on exact equality. -/
theorem rleC_roundtrip (v : ℚ) (t : List ℚ) (runs : List (ℚ × ℕ))
    (h : rleC (v :: t) = some runs) :
    runsExpand runs = v :: t
      ∧ (runs.map Prod.snd).sum = (v :: t).length
      ∧ List.Chain' (fun a b : ℚ × ℕ => a.1 ≠ b.1) runs := by
  have hr : runs = rleRuns v t := by
    have := h
    simp only [rleC, Option.some_inj] at this
    exact this.symm
  subst hr
  refine ⟨runsExpand_rleRuns t v, ?_, rleRuns_chain t v⟩
  rw [← runsExpand_length, runsExpand_rleRuns]

/-- Witness for C1 at the concrete input [5, 5, 3]. -/
theorem rleC_roundtrip_witness :
    runsExpand [((5 : ℚ), 2), (3, 1)] = [5, 5, 3]
      ∧ ([((5 : ℚ), 2), (3, 1)].map Prod.snd).sum = ([5, 5, 3] : List ℚ).length
      ∧ List.Chain' (fun a b : ℚ × ℕ => a.1 ≠ b.1) [((5 : ℚ), 2), (3, 1)] :=
  rleC_roundtrip 5 [5, 3] [(5, 2), (3, 1)] (by decide)

/-- Claim C10: rleC reads element 0 of its input before any scan, so the
non-empty precondition is necessary (the empty input hits the out-of-range
branch), and for every non-empty input every access is in bounds: the
out-of-range branch is unreachable, i.e. the result is always `some`. -/
theorem rleC_nonempty_precondition :
    rleC ([] : List ℚ) = none
      ∧ ∀ x : List ℚ, x ≠ [] → (rleC x).isSome = true := by
  constructor
  · rfl
  · intro x hx
    cases x with
    | nil => exact absurd rfl hx
    | cons h t => rfl

/-- Witness for C10 at the concrete input [1]. -/
theorem rleC_nonempty_precondition_witness :
    (rleC [(1 : ℚ)]).isSome = true :=
  rleC_nonempty_precondition.2 [1] (by decide)

/-- Value at a window position of the incremental recurrence of repr_sma
(helpers.cpp, lines 23-42): position 0 is the mean of the first `order`
elements, and position i+1 adds x[i+1+order]/order and subtracts
x[i]/order (the C++ loop body `repr[i] = repr[i-1] + x[i+order]/order -
x[i-1]/order`). -/
def smaAt (x : List ℚ) (order : ℕ) : ℕ → ℚ
  | 0 => (x.take order).sum / (order : ℚ)
  | i + 1 => smaAt x order i + x.getD (i + 1 + order) 0 / (order : ℚ)
      - x.getD i 0 / (order : ℚ)

/-- Embedding of repr_sma (helpers.cpp, lines 23-42): a vector of
`n - order` values filled by the incremental recurrence.  The source
performs no argument validation; for `order = n` the allocated output has
length 0 and the unconditional write `repr[0]` is out of range (here the
dropped write leaves the empty list). -/
def repr_sma (x : List ℚ) (order : ℕ) : List ℚ :=
  (List.range (x.length - order)).map (smaAt x order)

/-- Spec-side reference (spec 4.2): the directly recomputed window means,
one mean of `p` consecutive elements per output position. -/
def windowMeans (x : List ℚ) (p : ℕ) : List ℚ :=
  (List.range (x.length - p)).map (fun i => ((x.drop i).take p).sum / (p : ℚ))

/-- Embedding of clipping (representations.cpp, lines 28-42): 1 where the
element strictly exceeds the mean of the whole input, else 0. -/
def clipping (x : List ℚ) : List ℚ :=
  x.map (fun v => if v > x.sum / (x.length : ℚ) then 1 else 0)

/-- Embedding of trending (representations.cpp, lines 62-74): for each of
the n-1 adjacent pairs, 1 if `x[i] - x[i+1] < 0` (a rise), else 0. -/
def trending (x : List ℚ) : List ℚ :=
  (List.range (x.length - 1)).map
    (fun i => if x.getD i 0 - x.getD (i + 1) 0 < 0 then 1 else 0)

/-- Counterexample for claim C4: on x = [1,2,3,2,1,2,3,4,3,2] with order 3,
repr_sma does not return [2, 2, 2, 7/3, 3, 3, 3]: already at index 3 the
code yields 2 (exact also in double arithmetic), not 2.333... . -/
theorem repr_sma_scenario_cex :
    repr_sma [1, 2, 3, 2, 1, 2, 3, 4, 3, 2] 3 ≠ [2, 2, 2, 7/3, 3, 3, 3] := by
  have hr : List.range 7 = [0, 1, 2, 3, 4, 5, 6] := rfl
  norm_num [repr_sma, hr, smaAt]

/-- Claim C4 as amended: on x = [1,2,3,2,1,2,3,4,3,2] with order 3 the code
returns [2, 2, 2, 2, 8/3, 10/3, 10/3], and this output differs from the
directly recomputed window means (the recurrence adds x[i+order], not
x[i+order-1], so it does not track the sliding window). -/
theorem repr_sma_scenario_actual :
    repr_sma [1, 2, 3, 2, 1, 2, 3, 4, 3, 2] 3 = [2, 2, 2, 2, 8/3, 10/3, 10/3]
      ∧ repr_sma [1, 2, 3, 2, 1, 2, 3, 4, 3, 2] 3
          ≠ windowMeans [1, 2, 3, 2, 1, 2, 3, 4, 3, 2] 3 := by
  have hr : List.range 7 = [0, 1, 2, 3, 4, 5, 6] := rfl
  constructor
  · norm_num [repr_sma, hr, smaAt]
  · norm_num [repr_sma, windowMeans, hr, smaAt]

/-- Counterexample for claim C7: clipping [1,3,2,5,4] is not [0,1,0,1,1];
the comparison is strict and 3 is not greater than the mean 3. -/
theorem clipping_scenario_cex :
    clipping [1, 3, 2, 5, 4] ≠ [0, 1, 0, 1, 1] := by
  norm_num [clipping]

/-- Claim C7 as amended: clipping [1,3,2,5,4] (mean 3) = [0,0,0,1,1], with
output[i] = 1 exactly when x[i] > mean(x), the mean computed once over the
whole input. -/
theorem clipping_scenario_actual :
    clipping [1, 3, 2, 5, 4] = [0, 0, 0, 1, 1] := by
  norm_num [clipping]

/-- Claim C8, evaluated at the failing input (x = [1,2], order = 2, i.e.
order = n): repr_sma contains no validation of `order`; instead of failing
with InvalidArgument it returns normally with an empty vector (the C++
write `repr[0]` into the 0-length allocation is an unchecked out-of-range
write). -/
theorem repr_sma_no_validation : repr_sma [1, 2] 2 = [] := rfl

/-- Maximum of a list of naturals, 0 on the empty list; on non-empty lists
this models `*std::max_element`. -/
def natMax (l : List ℕ) : ℕ := l.foldr max 0

/-- Lengths of the runs collected by the `else` branch of
`values[i] == 0` in repr_feaclip (every run whose value is non-zero), in
run order (the two-pass count-then-fill is the in-order partition). -/
def runsOnes (runs : List (ℚ × ℕ)) : List ℕ :=
  (runs.filter (fun r => ¬ r.1 = 0)).map Prod.snd

/-- Lengths of the runs with value exactly 1, in run order (the claim's
wording of the ones-list). -/
def runsOnes1 (runs : List (ℚ × ℕ)) : List ℕ :=
  (runs.filter (fun r => r.1 = 1)).map Prod.snd

/-- Lengths of the runs with value 0, in run order. -/
def runsZeros (runs : List (ℚ × ℕ)) : List ℕ :=
  (runs.filter (fun r => r.1 = 0)).map Prod.snd

/-- The first run, `(values[0], lengths[0])`. -/
def runFirst (runs : List (ℚ × ℕ)) : ℚ × ℕ := runs.getD 0 (0, 0)

/-- The last run, `(values[N-1], lengths[N-1])`. -/
def runLast (runs : List (ℚ × ℕ)) : ℚ × ℕ := runs.getD (runs.length - 1) (0, 0)

/-- Max of a length list, 0 if the list is empty (repr_feaclip features 0
and 2). -/
def maxFeature (l : List ℕ) : ℚ := if l = [] then 0 else (natMax l : ℚ)

/-- Sum of a length list, 0 if the list is empty (repr_feaclip feature 1). -/
def sumFeature (l : List ℕ) : ℚ := if l = [] then 0 else (l.sum : ℚ)

/-- The length of a run if its value is `v`, else 0 (repr_feaclip features
4 to 7). -/
def runFeature (r : ℚ × ℕ) (v : ℚ) : ℚ := if r.1 = v then (r.2 : ℚ) else 0

/-- The 8-element feature vector of repr_feaclip (representations.cpp,
lines 97-169), indexed 0..7 as the source fills `representation`, as a
function of the run list and of the ones-list and zeros-list of run
lengths. -/
def feaclipVec (runs : List (ℚ × ℕ)) (ones zeros : List ℕ) : List ℚ :=
  [maxFeature ones, sumFeature ones, maxFeature zeros, (runs.length : ℚ) - 1,
   runFeature (runFirst runs) 0, runFeature (runLast runs) 0,
   runFeature (runFirst runs) 1, runFeature (runLast runs) 1]

/-- Embedding of repr_feaclip (representations.cpp, lines 97-169): the
features of the runs of the clipped input, the ones-list collected by the
`else` branch of `values[i] == 0`. -/
def repr_feaclip (x : List ℚ) : List ℚ :=
  feaclipVec (rleRunsOf (clipping x)) (runsOnes (rleRunsOf (clipping x)))
    (runsZeros (rleRunsOf (clipping x)))

/-- Spec-side reference for claim C3, following the claim's words: the
ones-list is the list of lengths of runs whose value is exactly 1. -/
def feaclipSpec (x : List ℚ) : List ℚ :=
  feaclipVec (rleRunsOf (clipping x)) (runsOnes1 (rleRunsOf (clipping x)))
    (runsZeros (rleRunsOf (clipping x)))

/-- Run values produced by the scan all come from the scanned input. -/
theorem rleRuns_fst_mem : ∀ (t : List ℚ) (v : ℚ) (r : ℚ × ℕ),
    r ∈ rleRuns v t → r.1 ∈ v :: t := by
  intro t
  induction t with
  | nil =>
    intro v r hr
    simp [rleRuns] at hr
    simp [hr]
  | cons y ys ih =>
    intro v r hr
    by_cases h : v = y
    · subst h
      obtain ⟨c, tl, htl⟩ := rleRuns_head ys v
      have hstep : rleRuns v (v :: ys) = (v, c + 1) :: tl := by
        simp [rleRuns, htl]
      rw [hstep] at hr
      rcases List.mem_cons.mp hr with h1 | h1
      · subst h1; simp
      · have : r ∈ rleRuns v ys := by rw [htl]; exact List.mem_cons_of_mem _ h1
        have := ih v r this
        rcases List.mem_cons.mp this with h2 | h2
        · simp [h2]
        · exact List.mem_cons_of_mem _ (List.mem_cons_of_mem _ h2)
    · have hstep : rleRuns v (y :: ys) = (v, 1) :: rleRuns y ys := by
        simp [rleRuns, h]
      rw [hstep] at hr
      rcases List.mem_cons.mp hr with h1 | h1
      · subst h1; simp
      · exact List.mem_cons_of_mem _ (ih y r h1)

/-- Every element of the clipped representation is 0 or 1. -/
theorem clipping_mem {x : List ℚ} {v : ℚ} (h : v ∈ clipping x) :
    v = 0 ∨ v = 1 := by
  simp only [clipping, List.mem_map] at h
  obtain ⟨a, _, hv⟩ := h
  by_cases hc : a > x.sum / (x.length : ℚ)
  · right; rw [← hv]; simp [hc]
  · left; rw [← hv]; simp [hc]

/-- Claim C3: for every input with a non-empty clipped representation,
repr_feaclip is exactly the 8-element vector the claim describes (max and
sum of lengths of value-1 runs, max of lengths of value-0 runs, number of
runs minus one, and the first/last run features), and when there is a
single run the first-run and last-run features read the same run. -/
theorem repr_feaclip_correct (x : List ℚ) (hx : clipping x ≠ []) :
    repr_feaclip x = feaclipSpec x
      ∧ ((rleRunsOf (clipping x)).length = 1 →
          (rleRunsOf (clipping x)).getD 0 (0, 0)
            = (rleRunsOf (clipping x)).getD
                ((rleRunsOf (clipping x)).length - 1) (0, 0)) := by
  have hmem : ∀ r ∈ rleRunsOf (clipping x), r.1 = 0 ∨ r.1 = 1 := by
    intro r hr
    cases hcl : clipping x with
    | nil => exact absurd hcl hx
    | cons c cs =>
      rw [hcl] at hr
      simp only [rleRunsOf] at hr
      have h1 := rleRuns_fst_mem cs c r hr
      rw [← hcl] at h1
      exact clipping_mem h1
  have hfil : (rleRunsOf (clipping x)).filter (fun r => ¬ r.1 = 0)
      = (rleRunsOf (clipping x)).filter (fun r => r.1 = 1) := by
    apply List.filter_congr
    intro a ha
    rcases hmem a ha with h | h <;> rw [h] <;> norm_num
  constructor
  · have hn : runsOnes (rleRunsOf (clipping x)) = runsOnes1 (rleRunsOf (clipping x)) := by
      simp only [runsOnes, runsOnes1, hfil]
    rw [repr_feaclip, feaclipSpec, hn]
  · intro h1
    simp [h1]

/-- Witness for C3 at the concrete input [1, 3, 2, 5, 4]. -/
theorem repr_feaclip_correct_witness :
    repr_feaclip [1, 3, 2, 5, 4] = feaclipSpec [1, 3, 2, 5, 4] :=
  (repr_feaclip_correct [1, 3, 2, 5, 4] (by simp [clipping])).1

/-- Block j of the smoothed series inside repr_featrend
(representations.cpp, lines 210-215): the `n_piece` indices
`i + n_piece*j` of `sma_x`, where `n_piece = n / pieces` (integer
division), so any trailing remainder of `sma_x` is discarded. -/
def smaBlock (x : List ℚ) (pieces order j : ℕ) : List ℚ :=
  ((repr_sma x order).drop (j * ((repr_sma x order).length / pieces))).take
    ((repr_sma x order).length / pieces)

/-- An output scalar of repr_featrend: `func` applied to a filled length
vector, or 0 when that vector is empty (`ones.size() == 0` checks the
allocated vector, padding included). -/
def featrendEntry (agg : List ℕ → ℚ) (l : List ℕ) : ℚ :=
  if l = [] then 0 else agg l

/-- Embedding of the piece loop of repr_featrend (representations.cpp,
lines 210-258).  The counters `o` and `z` live outside the loop and are
reset to this piece's counts only after the allocation: at the start of
piece j they still hold piece j-1's counts, so the vectors `ones(o)` and
`zeros(z)` are allocated with `previous + current` entries and the fill
pass writes only the first `current` of them, leaving the stale tail
zero-initialised.  The two arguments after the block list are the counter
values carried into the iteration. -/
def featrendLoop (agg : List ℕ → ℚ) : List (List ℚ) → ℕ → ℕ → List ℚ
  | [], _, _ => []
  | b :: bs, o, z =>
    featrendEntry agg (runsOnes (rleRunsOf (trending b)) ++ List.replicate o 0)
      :: featrendEntry agg (runsZeros (rleRunsOf (trending b)) ++ List.replicate z 0)
      :: featrendLoop agg bs (runsOnes (rleRunsOf (trending b))).length
          (runsZeros (rleRunsOf (trending b))).length

/-- Embedding of repr_featrend (representations.cpp, lines 196-261). -/
def repr_featrend (x : List ℚ) (agg : List ℕ → ℚ) (pieces order : ℕ) : List ℚ :=
  featrendLoop agg ((List.range pieces).map (smaBlock x pieces order)) 0 0

/-- Spec-side reference for claim C2, following the spec's words: for each
block independently, partition the run lengths of the trend-encoded block
by value into a ones-list and a zeros-list and emit agg(ones-list) and
agg(zeros-list), each 0 if its list is empty. -/
def repr_featrendSpec (x : List ℚ) (agg : List ℕ → ℚ) (pieces order : ℕ) : List ℚ :=
  ((List.range pieces).map (fun j =>
    [featrendEntry agg (runsOnes1 (rleRunsOf (trending (smaBlock x pieces order j)))),
     featrendEntry agg (runsZeros (rleRunsOf (trending (smaBlock x pieces order j))))])).flatten

/-- Minimum aggregation (a pure aggregation function in the sense of the
spec, `*std::min_element` on a non-empty vector). -/
def aggMin (l : List ℕ) : ℚ := ((l.min?.getD 0 : ℕ) : ℚ)

/-- Claim C2, evaluated at the failing input x = [2,9,1,1,1], agg = min,
pieces = 2, order = 1 (here smooth(x,1) = [2,1,-7,-7], both blocks
trend-encode to [0], a single zero-run of length 1): because the `o`/`z`
counters are not reset before the counting pass of the second piece, the
code aggregates the second piece's zeros-list padded with a stale entry,
min [1,0] = 0, where the claim requires agg of exactly [1], i.e. 1. -/
theorem repr_featrend_stale_counters :
    repr_featrend [2, 9, 1, 1, 1] aggMin 2 1 = [0, 1, 0, 0]
      ∧ repr_featrendSpec [2, 9, 1, 1, 1] aggMin 2 1 = [0, 1, 0, 1]
      ∧ repr_featrend [2, 9, 1, 1, 1] aggMin 2 1
          ≠ repr_featrendSpec [2, 9, 1, 1, 1] aggMin 2 1 := by
  have hsma : repr_sma [2, 9, 1, 1, 1] 1 = [2, 1, -7, -7] := by
    have hr : List.range 4 = [0, 1, 2, 3] := rfl
    norm_num [repr_sma, hr, smaAt]
  have hb0 : smaBlock [2, 9, 1, 1, 1] 2 1 0 = [2, 1] := by
    norm_num [smaBlock, hsma]
  have hb1 : smaBlock [2, 9, 1, 1, 1] 2 1 1 = [-7, -7] := by
    norm_num [smaBlock, hsma]
  have hr1 : List.range 1 = [0] := rfl
  have ht0 : trending [2, 1] = [0] := by norm_num [trending, hr1]
  have ht1 : trending [(-7 : ℚ), -7] = [0] := by norm_num [trending, hr1]
  have hruns : rleRunsOf [0] = [((0 : ℚ), 1)] := rfl
  have hones : runsOnes [((0 : ℚ), 1)] = [] := by norm_num [runsOnes]
  have hones1 : runsOnes1 [((0 : ℚ), 1)] = [] := by norm_num [runsOnes1]
  have hzeros : runsZeros [((0 : ℚ), 1)] = [1] := by norm_num [runsZeros]
  have hm1 : aggMin [1] = 1 := by norm_num [aggMin, List.min?]
  have hm0 : aggMin [1, 0] = 0 := by norm_num [aggMin, List.min?, List.foldl]
  have hrg : List.range 2 = [0, 1] := rfl
  refine ⟨?_, ?_, ?_⟩
  · rw [repr_featrend, hrg]
    simp only [List.map_cons, List.map_nil, hb0, hb1, featrendLoop, ht0, ht1,
      hruns, hones, hzeros]
    norm_num [featrendEntry, hm1, hm0]
  · rw [repr_featrendSpec, hrg]
    simp only [List.map_cons, List.map_nil, hb0, hb1, ht0, ht1, hruns,
      hones1, hzeros, List.flatten]
    norm_num [featrendEntry, hm1]
  · intro hcontra
    rw [repr_featrend, repr_featrendSpec, hrg] at hcontra
    simp only [List.map_cons, List.map_nil, hb0, hb1, featrendLoop, ht0, ht1,
      hruns, hones, hones1, hzeros, List.flatten] at hcontra
    norm_num [featrendEntry, hm1, hm0] at hcontra

/-- getD of a mapped range below the bound. -/
theorem getD_map_range (f : ℕ → ℚ) (m i : ℕ) (h : i < m) :
    ((List.range m).map f).getD i 0 = f i := by
  rw [List.getD_eq_getElem?_getD, List.getElem?_map, List.getElem?_range h]
  rfl

/-- getD of an append, inside the left part. -/
theorem getD_append_lt (l1 l2 : List ℚ) (i : ℕ) (h : i < l1.length) :
    (l1 ++ l2).getD i 0 = l1.getD i 0 := by
  rw [List.getD_eq_getElem?_getD, List.getD_eq_getElem?_getD,
    List.getElem?_append, if_pos h]

/-- getD of an append at the first index of the right part. -/
theorem getD_append_len (l1 l2 : List ℚ) :
    (l1 ++ l2).getD l1.length 0 = l2.getD 0 0 := by
  rw [List.getD_eq_getElem?_getD, List.getElem?_append_right (le_refl _)]
  rw [Nat.sub_self, List.getD_eq_getElem?_getD]

/-- getD of an append at an index equal to the left length. -/
theorem getD_append_at (l1 l2 : List ℚ) (i : ℕ) (h : i = l1.length) :
    (l1 ++ l2).getD i 0 = l2.getD 0 0 := by
  subst h
  exact getD_append_len l1 l2

/-- Reading every position of a list in order rebuilds the list. -/
theorem map_range_getD : ∀ l : List ℚ,
    (List.range l.length).map (fun i => l.getD i 0) = l := by
  intro l
  induction l with
  | nil => simp
  | cons a t ih =>
    rw [List.length_cons, List.range_succ_eq_map, List.map_cons, List.map_map,
      List.getD_cons_zero]
    have hf : ((fun i => (a :: t).getD i 0) ∘ Nat.succ) = fun i : ℕ => t.getD i 0 := by
      funext i
      simp [Function.comp, List.getD_cons_succ]
    rw [hf, ih]

/-- One element taken past a drop is the element at that index. -/
theorem drop_take_one : ∀ (l : List ℚ) (i : ℕ), i < l.length →
    (l.drop i).take 1 = [l.getD i 0] := by
  intro l
  induction l with
  | nil => intro i h; simp at h
  | cons a t ih =>
    intro i h
    cases i with
    | zero => simp
    | succ j =>
      simp only [List.drop_succ_cons, List.getD_cons_succ]
      exact ih j (by simpa using h)

/-- Block i of repr_paa (representations.cpp, lines 335-348): the q indices
`(i*q) + j` of x. -/
def paaBlock (x : List ℚ) (q i : ℕ) : List ℚ := (x.drop (i * q)).take q

/-- Embedding of repr_paa (representations.cpp, lines 319-359): `n/q` full
blocks of q elements, plus, when q does not divide n, one final block of
the remaining `n mod q` elements, the indices `((n_paa-1)*q) + j` for
`j < remain_count`. -/
def repr_paa (x : List ℚ) (q : ℕ) (agg : List ℚ → ℚ) : List ℚ :=
  if x.length % q = 0 then
    (List.range (x.length / q)).map (fun i => agg (paaBlock x q i))
  else
    (List.range (x.length / q)).map (fun i => agg (paaBlock x q i))
      ++ [agg (x.drop ((x.length / q) * q))]

/-- Claim C5: for q >= 1, repr_paa has ceil(n/q) elements; each of the
first n/q blocks has exactly q elements and is aggregated in block order;
when q does not divide n the final block holds the remaining n mod q
elements and is aggregated with the same function; and for q = 1 and an
aggregation that maps a singleton to its element, repr_paa is the
identity. -/
theorem repr_paa_correct (x : List ℚ) (q : ℕ) (agg : List ℚ → ℚ)
    (hq : 1 ≤ q) :
    (repr_paa x q agg).length = (x.length + q - 1) / q
      ∧ (∀ i, i < x.length / q →
            (paaBlock x q i).length = q
              ∧ (repr_paa x q agg).getD i 0 = agg (paaBlock x q i))
      ∧ (x.length % q ≠ 0 →
            (x.drop ((x.length / q) * q)).length = x.length % q
              ∧ (repr_paa x q agg).getD (x.length / q) 0
                  = agg (x.drop ((x.length / q) * q)))
      ∧ (q = 1 → (∀ a : ℚ, agg [a] = a) → repr_paa x q agg = x) := by
  have h0 : 0 < q := hq
  have hdm := Nat.div_add_mod x.length q
  have hmq : x.length % q < q := Nat.mod_lt _ h0
  refine ⟨?_, ?_, ?_, ?_⟩
  · by_cases h : x.length % q = 0
    · rw [repr_paa, if_pos h]
      simp only [List.length_map, List.length_range]
      have he : x.length + q - 1 = q * (x.length / q) + (q - 1) := by omega
      have hz : (q - 1) / q = 0 := Nat.div_eq_of_lt (by omega)
      rw [he, Nat.mul_add_div h0, hz]
      omega
    · rw [repr_paa, if_neg h]
      simp only [List.length_append, List.length_map, List.length_range,
        List.length_singleton]
      have he : x.length + q - 1 = q * (x.length / q + 1) + (x.length % q - 1) := by
        have hsm : q * (x.length / q + 1) = q * (x.length / q) + q := by
          rw [Nat.mul_add, Nat.mul_one]
        omega
      have hz : (x.length % q - 1) / q = 0 := Nat.div_eq_of_lt (by omega)
      rw [he, Nat.mul_add_div h0, hz]
  · intro i hi
    have hiq : (i + 1) * q ≤ (x.length / q) * q :=
      Nat.mul_le_mul_right q hi
    have hsm : (i + 1) * q = i * q + q := Nat.succ_mul i q
    have hml : (x.length / q) * q ≤ x.length := Nat.div_mul_le_self _ _
    constructor
    · have hle : q ≤ x.length - i * q := by omega
      rw [paaBlock, List.length_take, List.length_drop]
      exact Nat.min_eq_left hle
    · by_cases h : x.length % q = 0
      · rw [repr_paa, if_pos h, getD_map_range _ _ _ hi]
      · rw [repr_paa, if_neg h,
          getD_append_lt _ _ _ (by simpa using hi), getD_map_range _ _ _ hi]
  · intro h
    constructor
    · rw [List.length_drop]
      have hc : (x.length / q) * q = q * (x.length / q) := Nat.mul_comm _ _
      omega
    · rw [repr_paa, if_neg h]
      have hlen : ((List.range (x.length / q)).map
          (fun i => agg (paaBlock x q i))).length = x.length / q := by simp
      rw [getD_append_at _ _ _ hlen.symm, List.getD_cons_zero]
  · intro hq1 hagg
    subst hq1
    rw [repr_paa, if_pos (Nat.mod_one _)]
    rw [Nat.div_one]
    have hcg : ∀ i ∈ List.range x.length,
        agg (paaBlock x 1 i) = x.getD i 0 := by
      intro i hi
      rw [paaBlock, Nat.mul_one, drop_take_one x i (List.mem_range.mp hi)]
      exact hagg _
    rw [List.map_congr_left hcg, map_range_getD]

/-- Witness for C5 at x = [1, 2, 3], q = 1, agg = sum. -/
theorem repr_paa_correct_witness :
    repr_paa [1, 2, 3] 1 List.sum = [1, 2, 3] :=
  (repr_paa_correct [1, 2, 3] 1 List.sum (by norm_num)).2.2.2 rfl
    (fun a => by simp)

/-- Phase i of repr_seas_profile (representations.cpp, lines 388-391): the
values at the indices `(j*freq) + i` for `j < freq_times`, where
`freq_times = n / freq`, so the incomplete trailing cycle is excluded. -/
def seasPhase (x : List ℚ) (freq i : ℕ) : List ℚ :=
  (List.range (x.length / freq)).map (fun j => x.getD (j * freq + i) 0)

/-- Embedding of repr_seas_profile (representations.cpp, lines 381-396):
one aggregated scalar per phase. -/
def repr_seas_profile (x : List ℚ) (freq : ℕ) (agg : List ℚ → ℚ) : List ℚ :=
  (List.range freq).map (fun i => agg (seasPhase x freq i))

/-- Claim C6: for 1 <= freq <= n, repr_seas_profile has length freq; the
element at phase i is agg of exactly the values at indices i, i+freq, ...,
i+(cycles-1)*freq with cycles = n/freq (so each phase collects exactly
`cycles` values and every collected index is below cycles*freq, excluding
the incomplete trailing cycle); and for freq = n with an aggregation
mapping a singleton to its element the profile is x itself. -/
theorem repr_seas_profile_correct (x : List ℚ) (freq : ℕ) (agg : List ℚ → ℚ)
    (h1 : 1 ≤ freq) (h2 : freq ≤ x.length) :
    (repr_seas_profile x freq agg).length = freq
      ∧ (∀ i, i < freq →
          (repr_seas_profile x freq agg).getD i 0
              = agg ((List.range (x.length / freq)).map
                  (fun j => x.getD (i + j * freq) 0))
            ∧ (seasPhase x freq i).length = x.length / freq)
      ∧ (∀ i j, i < freq → j < x.length / freq →
          i + j * freq < (x.length / freq) * freq)
      ∧ (freq = x.length → (∀ a : ℚ, agg [a] = a) →
          repr_seas_profile x freq agg = x) := by
  refine ⟨?_, ?_, ?_, ?_⟩
  · simp [repr_seas_profile]
  · intro i hi
    constructor
    · rw [repr_seas_profile, getD_map_range _ _ _ hi, seasPhase]
      have hf : (fun j => x.getD (j * freq + i) 0)
          = fun j : ℕ => x.getD (i + j * freq) 0 := by
        funext j
        rw [Nat.add_comm]
      rw [hf]
    · simp [seasPhase]
  · intro i j hi hj
    have h3 : i + j * freq < (j + 1) * freq := by
      rw [Nat.succ_mul]
      omega
    have h4 : (j + 1) * freq ≤ (x.length / freq) * freq :=
      Nat.mul_le_mul_right freq hj
    exact lt_of_lt_of_le h3 h4
  · intro hf hagg
    subst hf
    have h0 : 0 < x.length := h1
    rw [repr_seas_profile]
    have hphase : ∀ i ∈ List.range x.length,
        agg (seasPhase x x.length i) = x.getD i 0 := by
      intro i hi
      rw [seasPhase, Nat.div_self h0, show List.range 1 = [0] from rfl]
      rw [List.map_cons, List.map_nil, Nat.zero_mul, Nat.zero_add]
      exact hagg _
    rw [List.map_congr_left hphase, map_range_getD]

/-- Witness for C6 at x = [4, 5, 6], freq = 3, agg = sum. -/
theorem repr_seas_profile_correct_witness :
    repr_seas_profile [4, 5, 6] 3 List.sum = [4, 5, 6] :=
  (repr_seas_profile_correct [4, 5, 6] 3 List.sum (by norm_num)
    (by norm_num)).2.2.2 rfl (fun a => by simp)

/-- The k-th order statistic of a sequence: the element at position k of a
sorted rearrangement.  This is the guarantee `std::nth_element` gives for
the element at the partition point. -/
def orderStat (x : List ℚ) (k : ℕ) : ℚ :=
  (List.insertionSort (fun a b => a ≤ b) x).getD k 0

/-- Embedding of medianC (helpers.cpp, lines 132-150): the source clones
the input and uses nth_element at `half = n/2` (and, for even n, again at
`half - 1` on the left partition, which holds the `half` smallest
elements); the element selected at position k is the k-th order statistic,
modelled by indexing a sorted rearrangement. -/
def medianC (x : List ℚ) : ℚ :=
  if x.length % 2 = 1 then
    (List.insertionSort (fun a b => a ≤ b) x).getD (x.length / 2) 0
  else
    ((List.insertionSort (fun a b => a ≤ b) x).getD (x.length / 2) 0
      + (List.insertionSort (fun a b => a ≤ b) x).getD (x.length / 2 - 1) 0) / 2

/-- Claim C9: for non-empty input, medianC is the middle order statistic
for odd length (in particular a member of the input) and the average of
the two middle order statistics for even length; median([1,2,3,4]) = 5/2
and median([1,2,3]) = 2.  The input itself is never modified: the
embedding is a pure function of x (the source partially sorts a clone). -/
theorem medianC_correct :
    (∀ x : List ℚ, x ≠ [] → x.length % 2 = 1 →
        medianC x = orderStat x (x.length / 2) ∧ medianC x ∈ x)
      ∧ (∀ x : List ℚ, x ≠ [] → x.length % 2 = 0 →
          medianC x = (orderStat x (x.length / 2)
            + orderStat x (x.length / 2 - 1)) / 2)
      ∧ medianC [1, 2, 3, 4] = 5/2 ∧ medianC [1, 2, 3] = 2 := by
  refine ⟨?_, ?_, ?_, ?_⟩
  · intro x hx hodd
    constructor
    · rw [medianC, orderStat, if_pos hodd]
    · have hlen : 0 < x.length := List.length_pos.mpr hx
      have hhalf : x.length / 2 < (List.insertionSort (fun a b => a ≤ b) x).length := by
        rw [List.length_insertionSort]
        exact Nat.div_lt_self hlen (by norm_num)
      rw [medianC, if_pos hodd, List.getD_eq_getElem _ _ hhalf]
      exact ((List.perm_insertionSort _ x).mem_iff).mp (List.getElem_mem hhalf)
  · intro x hx heven
    simp only [medianC, orderStat]
    rw [if_neg (by omega)]
  · norm_num [medianC, List.insertionSort, List.orderedInsert]
  · norm_num [medianC, List.insertionSort, List.orderedInsert]

/-- Witness for C9 at the concrete odd-length input [1, 2, 3]. -/
theorem medianC_correct_witness :
    medianC [1, 2, 3] = orderStat [1, 2, 3] 1 ∧ medianC [1, 2, 3] ∈ [1, 2, 3] :=
  medianC_correct.1 [1, 2, 3] (by simp) (by norm_num)
